import Mathlib

/-!
Shallow embedding of the Splitter client core (src/App.tsx, src/types.ts).

JavaScript numbers are modelled by `JsNum`: an exact rational together with
the three non-finite IEEE-754 values (positive infinity, negative infinity,
NaN).  The arithmetic operations used by the code (addition, subtraction,
multiplication, division, absolute value, comparison) follow the IEEE-754
propagation rules for non-finite operands and are exact on finite operands;
rounding of finite results is out of scope (the spec explicitly treats
floating-point rounding as negligible).  The negative-zero distinction is not
modelled; it is irrelevant to every path the claims touch.

JavaScript plain objects used as maps (the balance record and the paidBy
record) are modelled by association lists with the JavaScript update
semantics: writing an existing key keeps its position, writing a fresh key
appends it.  Object.entries / Object.keys then correspond to the list itself
and its key projection.
-/

/-- JsNum models a JavaScript number: an exact rational, or one of the
non-finite IEEE-754 values. -/
inductive JsNum where
  | fin (q : ℚ)
  | inf
  | ninf
  | nan
deriving DecidableEq, Repr

/-- Negation of a JavaScript number. -/
def jsNeg : JsNum → JsNum
  | JsNum.fin q => JsNum.fin (-q)
  | JsNum.inf => JsNum.ninf
  | JsNum.ninf => JsNum.inf
  | JsNum.nan => JsNum.nan

/-- Addition of JavaScript numbers (IEEE-754 propagation on non-finite
operands, exact on finite operands). -/
def jsAdd : JsNum → JsNum → JsNum
  | JsNum.nan, _ => JsNum.nan
  | _, JsNum.nan => JsNum.nan
  | JsNum.inf, JsNum.ninf => JsNum.nan
  | JsNum.ninf, JsNum.inf => JsNum.nan
  | JsNum.inf, _ => JsNum.inf
  | _, JsNum.inf => JsNum.inf
  | JsNum.ninf, _ => JsNum.ninf
  | _, JsNum.ninf => JsNum.ninf
  | JsNum.fin a, JsNum.fin b => JsNum.fin (a + b)

/-- Subtraction of JavaScript numbers. -/
def jsSub (a b : JsNum) : JsNum := jsAdd a (jsNeg b)

/-- Multiplication of JavaScript numbers; infinity times zero is NaN. -/
def jsMul : JsNum → JsNum → JsNum
  | JsNum.nan, _ => JsNum.nan
  | _, JsNum.nan => JsNum.nan
  | JsNum.fin a, JsNum.fin b => JsNum.fin (a * b)
  | JsNum.inf, JsNum.fin b =>
      if b = 0 then JsNum.nan else if 0 < b then JsNum.inf else JsNum.ninf
  | JsNum.ninf, JsNum.fin b =>
      if b = 0 then JsNum.nan else if 0 < b then JsNum.ninf else JsNum.inf
  | JsNum.fin a, JsNum.inf =>
      if a = 0 then JsNum.nan else if 0 < a then JsNum.inf else JsNum.ninf
  | JsNum.fin a, JsNum.ninf =>
      if a = 0 then JsNum.nan else if 0 < a then JsNum.ninf else JsNum.inf
  | JsNum.inf, JsNum.inf => JsNum.inf
  | JsNum.inf, JsNum.ninf => JsNum.ninf
  | JsNum.ninf, JsNum.inf => JsNum.ninf
  | JsNum.ninf, JsNum.ninf => JsNum.inf

/-- Division of JavaScript numbers; zero divided by zero is NaN, a nonzero
finite value divided by zero is a signed infinity. -/
def jsDiv : JsNum → JsNum → JsNum
  | JsNum.nan, _ => JsNum.nan
  | _, JsNum.nan => JsNum.nan
  | JsNum.fin a, JsNum.fin b =>
      if b = 0 then
        (if a = 0 then JsNum.nan else if 0 < a then JsNum.inf else JsNum.ninf)
      else JsNum.fin (a / b)
  | JsNum.inf, JsNum.fin b => if 0 ≤ b then JsNum.inf else JsNum.ninf
  | JsNum.ninf, JsNum.fin b => if 0 ≤ b then JsNum.ninf else JsNum.inf
  | JsNum.fin _, JsNum.inf => JsNum.fin 0
  | JsNum.fin _, JsNum.ninf => JsNum.fin 0
  | JsNum.inf, JsNum.inf => JsNum.nan
  | JsNum.inf, JsNum.ninf => JsNum.nan
  | JsNum.ninf, JsNum.inf => JsNum.nan
  | JsNum.ninf, JsNum.ninf => JsNum.nan

/-- Absolute value of a JavaScript number (Math.abs). -/
def jsAbs : JsNum → JsNum
  | JsNum.fin q => JsNum.fin |q|
  | JsNum.inf => JsNum.inf
  | JsNum.ninf => JsNum.inf
  | JsNum.nan => JsNum.nan

/-- Strict less-than on JavaScript numbers; any comparison with NaN is
false. -/
def jsLt : JsNum → JsNum → Bool
  | JsNum.nan, _ => false
  | _, JsNum.nan => false
  | JsNum.fin a, JsNum.fin b => decide (a < b)
  | JsNum.ninf, JsNum.ninf => false
  | JsNum.ninf, _ => true
  | _, JsNum.ninf => false
  | JsNum.inf, _ => false
  | JsNum.fin _, JsNum.inf => true

/-- Truthiness of a JavaScript number: zero and NaN are falsy, everything
else is truthy. -/
def jsTruthy : JsNum → Bool
  | JsNum.fin q => decide (q ≠ 0)
  | JsNum.nan => false
  | JsNum.inf => true
  | JsNum.ninf => true

/-- Models the JavaScript idiom (x || 0) applied to a possibly-undefined
record field: undefined, 0 and NaN all collapse to 0. -/
def jsOrZero : Option JsNum → JsNum
  | none => JsNum.fin 0
  | some v => if jsTruthy v then v else JsNum.fin 0

-- Association lists modelling JavaScript plain objects used as maps.

/-- Reads a key from an object modelled as an association list
(obj[k], undefined when absent). -/
def balsLookup : List (String × JsNum) → String → Option JsNum
  | [], _ => none
  | p :: rest, k => if p.1 = k then some p.2 else balsLookup rest k

/-- Writes a key into an object modelled as an association list with the
JavaScript semantics: an existing key keeps its position, a fresh key is
appended. -/
def balsSet : List (String × JsNum) → String → JsNum → List (String × JsNum)
  | [], k, v => [(k, v)]
  | p :: rest, k, v => if p.1 = k then (k, v) :: rest else p :: balsSet rest k v

/-- Object.keys of an association-list object. -/
def balsKeys (bals : List (String × JsNum)) : List String :=
  bals.map Prod.fst

-- Data model (src/types.ts).

/-- Friend (src/types.ts): a profile id plus the isMe marker.  Only the
fields the balance computation reads are modelled. -/
structure Friend where
  id : String
  isMe : Bool
deriving DecidableEq, Repr

/-- Expense (src/types.ts): the canonical in-memory expense shape. -/
structure Expense where
  id : String
  description : String
  amount : JsNum
  paidBy : List (String × JsNum)
  splitBetween : List String
  date : String
  category : String
  createdBy : Option String
deriving DecidableEq, Repr

/-- Balance (src/types.ts): one output entry of the balance computation. -/
structure Balance where
  friendId : String
  amount : JsNum
deriving DecidableEq, Repr

-- Expense Normalizer (src/App.tsx, fetchUserData / formattedExpenses).

/-- Raw paid_by field of a stored expense record: a legacy scalar id
string, a structured mapping, the JavaScript value null, or absent
(undefined).  In the source the case analysis is by typeof. -/
inductive RawPaidBy where
  | str (s : String)
  | obj (m : List (String × JsNum))
  | nullv
  | undef
deriving DecidableEq, Repr

/-- Raw stored expense record as returned by the persistence collaborator;
split_between may be absent (none). -/
structure RawExpense where
  id : String
  description : String
  amount : JsNum
  paid_by : RawPaidBy
  split_between : Option (List String)
  date : String
  category : String
  created_by : Option String
deriving DecidableEq, Repr

/-- Expense Normalizer, translated from the formattedExpenses mapping in
fetchUserData (src/App.tsx lines 100-120): a string paid_by becomes the
singleton mapping holding the full amount, an object paid_by passes
through, null and undefined degrade to the empty mapping, and a missing
split_between defaults to the empty list. -/
def formatExpense (e : RawExpense) : Expense :=
  let paidByMap : List (String × JsNum) :=
    match e.paid_by with
    | RawPaidBy.str s => [(s, e.amount)]
    | RawPaidBy.obj m => m
    | RawPaidBy.nullv => []
    | RawPaidBy.undef => []
  { id := e.id
    description := e.description
    amount := e.amount
    paidBy := paidByMap
    splitBetween := e.split_between.getD []
    date := e.date
    category := e.category
    createdBy := e.created_by }

-- Submission Encoder (src/App.tsx, handleAddExpense).

/-- Drafted expense handed to handleAddExpense (Omit of Expense over id and
date). -/
structure ExpenseDraft where
  description : String
  amount : JsNum
  paidBy : List (String × JsNum)
  splitBetween : List String
  category : String
deriving DecidableEq, Repr

/-- Persisted paid_by field: either the legacy scalar id or the structured
mapping. -/
inductive PaidByPayload where
  | scalar (id : String)
  | mapping (m : List (String × JsNum))
deriving DecidableEq, Repr

/-- Record inserted into the expenses table by handleAddExpense. -/
structure ExpensePayload where
  description : String
  amount : JsNum
  paid_by : PaidByPayload
  split_between : List String
  category : String
  date : String
  created_by : String
deriving DecidableEq, Repr

/-- Submission Encoder, translated from handleAddExpense (src/App.tsx lines
130-146): with exactly one payer entry whose amount is within 0.01 of the
total, the scalar form is chosen; otherwise the mapping is passed through
unchanged.  A record object cannot hold duplicate keys, so a single key of
Object.keys corresponds to a singleton entry list. -/
def encodePaidBy (amount : JsNum) (paidBy : List (String × JsNum)) : PaidByPayload :=
  match paidBy with
  | [(i, v)] =>
      if jsLt (jsAbs (jsSub v amount)) (JsNum.fin (1 / 100)) then PaidByPayload.scalar i
      else PaidByPayload.mapping [(i, v)]
  | other => PaidByPayload.mapping other

/-- Payload construction of handleAddExpense (src/App.tsx lines 143-151);
now stands for the new Date() timestamp and userProfileId for the acting
user id. -/
def handleAddExpense (userProfileId : String) (now : String) (d : ExpenseDraft) :
    ExpensePayload :=
  { description := d.description
    amount := d.amount
    paid_by := encodePaidBy d.amount d.paidBy
    split_between := d.splitBetween
    category := d.category
    date := now
    created_by := userProfileId }

-- Balance Engine (src/App.tsx, balances useMemo, lines 196-242).

/-- Innermost step of the balance computation: one (payerId, paidAmount)
pair against one consumerId, translated literally from the payers.forEach
body (src/App.tsx lines 221-237).  Both conditional writes read the current
record with the (bals[k] || 0) idiom. -/
def applyPayerStep (uid : String) (costPerPerson expAmount : JsNum) (consumerId : String)
    (bals : List (String × JsNum)) (p : String × JsNum) : List (String × JsNum) :=
  let weight := jsDiv p.2 expAmount
  let debtChunk := jsMul costPerPerson weight
  let bals1 :=
    if p.1 = uid ∧ consumerId ≠ uid then
      balsSet bals consumerId (jsAdd (jsOrZero (balsLookup bals consumerId)) debtChunk)
    else bals
  if p.1 ≠ uid ∧ consumerId = uid then
    balsSet bals1 p.1 (jsSub (jsOrZero (balsLookup bals1 p.1)) debtChunk)
  else bals1

/-- One consumer against all payers (the consumers.forEach body). -/
def applyConsumer (uid : String) (costPerPerson expAmount : JsNum)
    (payers : List (String × JsNum)) (bals : List (String × JsNum))
    (consumerId : String) : List (String × JsNum) :=
  payers.foldl (applyPayerStep uid costPerPerson expAmount consumerId) bals

/-- One expense against the running balance record (the expenses.forEach
body); costPerPerson is the amount divided by the split size, with no guard
in the source. -/
def processExpense (uid : String) (bals : List (String × JsNum)) (e : Expense) :
    List (String × JsNum) :=
  let costPerPerson := jsDiv e.amount (JsNum.fin e.splitBetween.length)
  e.splitBetween.foldl (applyConsumer uid costPerPerson e.amount e.paidBy) bals

/-- Initialization of the balance record: one zero entry per friend not
marked isMe (src/App.tsx lines 199-202). -/
def initBals (friends : List Friend) : List (String × JsNum) :=
  friends.foldl (fun b f => if f.isMe then b else balsSet b f.id (JsNum.fin 0)) []

/-- Balance Engine, translated from the balances useMemo (src/App.tsx lines
196-242).  The userProfile argument carries the acting-user id when a
profile is loaded; a missing profile yields the empty output, mirroring the
early return in the source. -/
def balances (friends : List Friend) (expenses : List Expense)
    (userProfile : Option String) : List Balance :=
  let bals := initBals friends
  match userProfile with
  | none => []
  | some uid =>
      ((expenses.foldl (processExpense uid) bals).map fun p => ⟨p.1, p.2⟩)

/-- Amount reported for a given id in a balance list, zero when the id has
no entry (callers of the engine treat a missing entry as zero). -/
def balanceAt (out : List Balance) (id : String) : JsNum :=
  match out.find? (fun b => b.friendId = id) with
  | some b => b.amount
  | none => JsNum.fin 0

-- Generic foldl induction principles used to lift step lemmas to the
-- nested forEach loops of the balance computation.

/-- Fold induction: a predicate preserved by every step applied to a list
element holds after the fold. -/
theorem foldl_mem_induction {α β : Type} (f : β → α → β) (P : β → Prop) :
    ∀ (l : List α) (b : β), P b → (∀ x ∈ l, ∀ s, P s → P (f s x)) → P (l.foldl f b) := by
  intro l
  induction l with
  | nil => intro b hb _; exact hb
  | cons x t ih =>
      intro b hb h
      exact ih (f b x) (h x (List.mem_cons_self x t) b hb)
        (fun y hy s hs => h y (List.mem_cons_of_mem x hy) s hs)

/-- Fold induction without the membership refinement. -/
theorem foldl_preserve {α β : Type} (f : β → α → β) (P : β → Prop)
    (h : ∀ (s : β) (x : α), P s → P (f s x)) (l : List α) (b : β) (hb : P b) :
    P (l.foldl f b) :=
  foldl_mem_induction f P l b hb (fun x _ s hs => h s x hs)

/-- Fold reachability: once some list element establishes a predicate that
every step preserves, the predicate holds after the fold. -/
theorem foldl_reach {α β : Type} (f : β → α → β) (Q : β → Prop)
    (hpres : ∀ (s : β) (x : α), Q s → Q (f s x)) :
    ∀ (l : List α) (x : α), x ∈ l → (∀ s, Q (f s x)) → ∀ b, Q (l.foldl f b) := by
  intro l
  induction l with
  | nil => intro x hx; exact absurd hx (List.not_mem_nil x)
  | cons y t ih =>
      intro x hx hstep b
      rcases List.mem_cons.mp hx with h | h
      · subst h
        exact foldl_preserve f Q hpres t (f b x) (hstep b)
      · exact ih x h hstep (f b y)

-- Lemmas about the association-list object operations.

theorem balsLookup_balsSet_self (b : List (String × JsNum)) (k : String) (v : JsNum) :
    balsLookup (balsSet b k v) k = some v := by
  induction b with
  | nil => simp [balsSet, balsLookup]
  | cons p rest ih =>
      by_cases h : p.1 = k
      · simp [balsSet, h, balsLookup]
      · simp [balsSet, h, balsLookup, ih]

theorem balsLookup_balsSet_ne (b : List (String × JsNum)) (k : String) (v : JsNum)
    (a : String) (ha : a ≠ k) : balsLookup (balsSet b k v) a = balsLookup b a := by
  induction b with
  | nil => simp [balsSet, balsLookup, Ne.symm ha]
  | cons p rest ih =>
      by_cases h : p.1 = k
      · subst h
        simp [balsSet, balsLookup, Ne.symm ha]
      · by_cases h2 : p.1 = a
        · simp [balsSet, h, ha, balsLookup, h2]
        · simp [balsSet, h, ha, balsLookup, h2, ih]

theorem mem_balsKeys_balsSet (b : List (String × JsNum)) (k : String) (v : JsNum)
    (a : String) : a ∈ balsKeys (balsSet b k v) ↔ a = k ∨ a ∈ balsKeys b := by
  induction b with
  | nil => simp [balsSet, balsKeys]
  | cons p rest ih =>
      by_cases h : p.1 = k
      · subst h
        simp [balsSet, balsKeys]
        try tauto
      · simp [balsSet, h, balsKeys] at ih ⊢
        tauto

theorem balsKeys_nodup_balsSet (b : List (String × JsNum)) (k : String) (v : JsNum)
    (hb : (balsKeys b).Nodup) : (balsKeys (balsSet b k v)).Nodup := by
  induction b with
  | nil => simp [balsSet, balsKeys]
  | cons p rest ih =>
      by_cases h : p.1 = k
      · subst h
        have step : balsSet (p :: rest) p.1 v = (p.1, v) :: rest := by simp [balsSet]
        rw [step]
        simp only [balsKeys, List.map_cons] at hb ⊢
        exact hb
      · have step : balsSet (p :: rest) k v = p :: balsSet rest k v := by simp [balsSet, h]
        rw [step]
        simp only [balsKeys, List.map_cons] at hb ⊢
        rw [List.nodup_cons] at hb ⊢
        refine ⟨fun hmem => ?_, ih hb.2⟩
        rcases (mem_balsKeys_balsSet rest k v p.1).mp hmem with h1 | h1
        · exact h h1
        · exact hb.1 h1

theorem balsLookup_eq_none (b : List (String × JsNum)) (a : String) :
    balsLookup b a = none ↔ a ∉ balsKeys b := by
  induction b with
  | nil => simp [balsLookup, balsKeys]
  | cons p rest ih =>
      by_cases h : p.1 = a
      · simp [balsLookup, h, balsKeys]
      · simp [balsLookup, h, balsKeys, ih, Ne.symm h]

theorem balsLookup_mem (b : List (String × JsNum)) (a : String) (v : JsNum)
    (h : balsLookup b a = some v) : (a, v) ∈ b := by
  induction b with
  | nil => simp [balsLookup] at h
  | cons p rest ih =>
      obtain ⟨pk, pv⟩ := p
      by_cases hp : pk = a
      · subst hp
        simp [balsLookup] at h
        subst h
        exact List.mem_cons_self _ _
      · simp [balsLookup, hp] at h
        exact List.mem_cons_of_mem _ (ih h)

/-- Every record in the balance object holds a finite value. -/
def FinBals (b : List (String × JsNum)) : Prop :=
  ∀ p ∈ b, ∃ q : ℚ, p.2 = JsNum.fin q

theorem finBals_balsSet (b : List (String × JsNum)) (k : String) (q : ℚ)
    (hb : FinBals b) : FinBals (balsSet b k (JsNum.fin q)) := by
  induction b with
  | nil =>
      intro p hp
      simp [balsSet] at hp
      exact ⟨q, by simp [hp]⟩
  | cons x rest ih =>
      intro p hp
      by_cases h : x.1 = k
      · simp [balsSet, h] at hp
        rcases hp with hp | hp
        · exact ⟨q, by simp [hp]⟩
        · exact hb p (List.mem_cons_of_mem _ hp)
      · simp [balsSet, h] at hp
        rcases hp with hp | hp
        · exact hb p (by simp [hp])
        · exact ih (fun r hr => hb r (List.mem_cons_of_mem _ hr)) p hp

/-- Rational carried by a finite JsNum, zero on the non-finite values. -/
def toQ : JsNum → ℚ
  | JsNum.fin q => q
  | _ => 0

/-- Finiteness test for a JsNum. -/
def isFin : JsNum → Bool
  | JsNum.fin _ => true
  | _ => false

/-- Rational read of the balance object at a key, through the (x || 0)
idiom of the source. -/
def qAt (b : List (String × JsNum)) (id : String) : ℚ :=
  toQ (jsOrZero (balsLookup b id))

theorem jsOrZero_fin (q : ℚ) : jsOrZero (some (JsNum.fin q)) = JsNum.fin q := by
  by_cases h : q = 0
  · simp [jsOrZero, jsTruthy, h]
  · simp [jsOrZero, jsTruthy, h]

theorem jsOrZero_lookup_fin (b : List (String × JsNum)) (id : String) (hb : FinBals b) :
    jsOrZero (balsLookup b id) = JsNum.fin (qAt b id) := by
  unfold qAt
  cases h : balsLookup b id with
  | none => simp [jsOrZero, toQ]
  | some v =>
      rcases hb _ (balsLookup_mem b id v h) with ⟨q, hq⟩
      simp at hq
      subst hq
      simp [jsOrZero_fin, toQ]

-- Specification-side formulation of the accumulation rule (claim C1).
-- These definitions follow the words of the spec and are compared with the
-- fold translated from the source.

/-- Debt chunk of one consumer toward one payer, as the spec words it:
costPerPerson times the payer weight. -/
def specDebtChunk (amt : ℚ) (n : ℕ) (paid : ℚ) : ℚ :=
  (amt / (n : ℚ)) * (paid / amt)

/-- Signed adjustment a single (payer, consumer) combination contributes to
the balance of a given id, as the spec words it: positive when the acting
user paid and the id consumed, negative when the id paid and the acting
user consumed, zero for every other combination. -/
def specAdjust (uid id : String) (amt : ℚ) (n : ℕ) (c payerId : String) (paid : ℚ) : ℚ :=
  if payerId = uid ∧ c ≠ uid ∧ c = id then specDebtChunk amt n paid
  else if payerId ≠ uid ∧ c = uid ∧ payerId = id then -(specDebtChunk amt n paid)
  else 0

/-- Total adjustment one expense contributes to the balance of an id: the
sum over all (consumer, payer) combinations. -/
def specExpenseAdjust (uid id : String) (e : Expense) : ℚ :=
  (e.splitBetween.map fun c =>
    (e.paidBy.map fun p =>
      specAdjust uid id (toQ e.amount) e.splitBetween.length c p.1 (toQ p.2)).sum).sum

/-- Spec-side balance of an id: the sum of the per-expense adjustments. -/
def specBalance (uid id : String) (es : List Expense) : ℚ :=
  (es.map (specExpenseAdjust uid id)).sum

/-- Well-formedness of an expense for the accumulation claim: non-empty
split, finite non-zero amount, finite paid amounts. -/
def FiniteNonzeroExpense (e : Expense) : Prop :=
  e.splitBetween ≠ [] ∧ isFin e.amount = true ∧ toQ e.amount ≠ 0 ∧
    ∀ p ∈ e.paidBy, isFin p.2 = true

instance (e : Expense) : Decidable (FiniteNonzeroExpense e) := by
  unfold FiniteNonzeroExpense
  infer_instance

-- Computation lemmas for the JavaScript operations on finite operands.

theorem jsAdd_fin (a b : ℚ) : jsAdd (JsNum.fin a) (JsNum.fin b) = JsNum.fin (a + b) := rfl

theorem jsSub_fin (a b : ℚ) : jsSub (JsNum.fin a) (JsNum.fin b) = JsNum.fin (a - b) := by
  simp [jsSub, jsAdd, jsNeg, sub_eq_add_neg]

theorem jsMul_fin (a b : ℚ) : jsMul (JsNum.fin a) (JsNum.fin b) = JsNum.fin (a * b) := rfl

theorem jsDiv_fin_of_ne (a b : ℚ) (hb : b ≠ 0) :
    jsDiv (JsNum.fin a) (JsNum.fin b) = JsNum.fin (a / b) := by
  simp [jsDiv, hb]

theorem qAt_balsSet_self (b : List (String × JsNum)) (k : String) (q : ℚ) :
    qAt (balsSet b k (JsNum.fin q)) k = q := by
  unfold qAt
  rw [balsLookup_balsSet_self, jsOrZero_fin]
  rfl

theorem qAt_balsSet_ne (b : List (String × JsNum)) (k : String) (v : JsNum)
    (id : String) (h : id ≠ k) : qAt (balsSet b k v) id = qAt b id := by
  unfold qAt
  rw [balsLookup_balsSet_ne b k v id h]

/-- One innermost step of the fold agrees with the spec-side adjustment on
finite data: the balance object stays finite and the rational it holds at
every id moves by exactly the specified signed debt chunk. -/
theorem applyPayerStep_spec (uid : String) (aq : ℚ) (n : ℕ) (ci : String)
    (bals : List (String × JsNum)) (hb : FinBals bals)
    (p : String × JsNum) (pq : ℚ) (hp : p.2 = JsNum.fin pq) (ha : aq ≠ 0) :
    FinBals (applyPayerStep uid (JsNum.fin (aq / (n : ℚ))) (JsNum.fin aq) ci bals p) ∧
    ∀ id, qAt (applyPayerStep uid (JsNum.fin (aq / (n : ℚ))) (JsNum.fin aq) ci bals p) id
      = qAt bals id + specAdjust uid id aq n ci p.1 pq := by
  have hchunk : jsMul (JsNum.fin (aq / (n : ℚ))) (jsDiv p.2 (JsNum.fin aq))
      = JsNum.fin (specDebtChunk aq n pq) := by
    rw [hp, jsDiv_fin_of_ne pq aq ha, jsMul_fin]
    rfl
  by_cases h1 : p.1 = uid ∧ ci ≠ uid
  · have h2 : ¬(p.1 ≠ uid ∧ ci = uid) := fun hc => hc.1 h1.1
    have hres : applyPayerStep uid (JsNum.fin (aq / (n : ℚ))) (JsNum.fin aq) ci bals p
        = balsSet bals ci (JsNum.fin (qAt bals ci + specDebtChunk aq n pq)) := by
      simp only [applyPayerStep]
      rw [hchunk]
      rw [if_pos h1, if_neg h2]
      rw [jsOrZero_lookup_fin bals ci hb, jsAdd_fin]
    rw [hres]
    obtain ⟨hpu, hcu⟩ := h1
    refine ⟨finBals_balsSet bals ci _ hb, fun id => ?_⟩
    by_cases hid : id = ci
    · subst hid
      rw [qAt_balsSet_self]
      simp [specAdjust, hpu, hcu]
    · rw [qAt_balsSet_ne bals ci _ id hid]
      have hic : ci ≠ id := fun h => hid h.symm
      have hz : specAdjust uid id aq n ci p.1 pq = 0 := by
        simp [specAdjust, hpu, hcu, hic]
      rw [hz, add_zero]
  · by_cases h2 : p.1 ≠ uid ∧ ci = uid
    · have hres : applyPayerStep uid (JsNum.fin (aq / (n : ℚ))) (JsNum.fin aq) ci bals p
          = balsSet bals p.1 (JsNum.fin (qAt bals p.1 - specDebtChunk aq n pq)) := by
        simp only [applyPayerStep]
        rw [hchunk]
        rw [if_neg h1, if_pos h2]
        rw [jsOrZero_lookup_fin bals p.1 hb, jsSub_fin]
      rw [hres]
      obtain ⟨hpu, hcu⟩ := h2
      refine ⟨finBals_balsSet bals p.1 _ hb, fun id => ?_⟩
      by_cases hid : id = p.1
      · subst hid
        rw [qAt_balsSet_self]
        simp [specAdjust, hpu, hcu, sub_eq_add_neg]
      · rw [qAt_balsSet_ne bals p.1 _ id hid]
        have hpi : p.1 ≠ id := fun h => hid h.symm
        have hz : specAdjust uid id aq n ci p.1 pq = 0 := by
          simp [specAdjust, hpu, hcu, hpi]
        rw [hz, add_zero]
    · have hres : applyPayerStep uid (JsNum.fin (aq / (n : ℚ))) (JsNum.fin aq) ci bals p
          = bals := by
        simp only [applyPayerStep]
        rw [hchunk]
        rw [if_neg h1, if_neg h2]
      rw [hres]
      refine ⟨hb, fun id => ?_⟩
      have : specAdjust uid id aq n ci p.1 pq = 0 := by
        unfold specAdjust
        rw [if_neg, if_neg]
        · intro hc
          exact h2 ⟨hc.1, hc.2.1⟩
        · intro hc
          exact h1 ⟨hc.1, hc.2.1⟩
      rw [this, add_zero]

theorem isFin_exists (v : JsNum) (h : isFin v = true) : ∃ q : ℚ, v = JsNum.fin q := by
  cases v <;> simp [isFin] at h ⊢

/-- One consumer against a payer list agrees with the spec-side sum of
adjustments over the payers. -/
theorem applyConsumer_spec (uid : String) (aq : ℚ) (n : ℕ) (ci : String)
    (payers : List (String × JsNum)) (hps : ∀ p ∈ payers, isFin p.2 = true) (ha : aq ≠ 0) :
    ∀ (bals : List (String × JsNum)), FinBals bals →
      FinBals (applyConsumer uid (JsNum.fin (aq / (n : ℚ))) (JsNum.fin aq) payers bals ci) ∧
      ∀ id, qAt (applyConsumer uid (JsNum.fin (aq / (n : ℚ))) (JsNum.fin aq) payers bals ci) id
        = qAt bals id + (payers.map fun p => specAdjust uid id aq n ci p.1 (toQ p.2)).sum := by
  induction payers with
  | nil =>
      intro bals hb
      exact ⟨hb, fun id => by simp [applyConsumer]⟩
  | cons p t ih =>
      intro bals hb
      rcases isFin_exists p.2 (hps p (List.mem_cons_self p t)) with ⟨pq, hpq⟩
      have hstep := applyPayerStep_spec uid aq n ci bals hb p pq hpq ha
      have hrest := ih (fun r hr => hps r (List.mem_cons_of_mem p hr))
        (applyPayerStep uid (JsNum.fin (aq / (n : ℚ))) (JsNum.fin aq) ci bals p) hstep.1
      constructor
      · simpa [applyConsumer, List.foldl_cons] using hrest.1
      · intro id
        have h1 := hstep.2 id
        have h2 := hrest.2 id
        simp only [applyConsumer, List.foldl_cons] at h2 ⊢
        rw [h2, h1, List.map_cons, List.sum_cons, hpq]
        simp [toQ]
        ring

/-- One expense agrees with the spec-side per-expense adjustment when the
expense is well formed. -/
theorem processExpense_spec (uid : String) (e : Expense) (he : FiniteNonzeroExpense e)
    (bals : List (String × JsNum)) (hb : FinBals bals) :
    FinBals (processExpense uid bals e) ∧
    ∀ id, qAt (processExpense uid bals e) id = qAt bals id + specExpenseAdjust uid id e := by
  obtain ⟨hne, hfin, hnz, hps⟩ := he
  rcases isFin_exists e.amount hfin with ⟨aq, haq⟩
  have haq0 : aq ≠ 0 := by
    rw [haq] at hnz
    simpa [toQ] using hnz
  have hn : ((e.splitBetween.length : ℚ)) ≠ 0 := by
    simp only [ne_eq, Nat.cast_eq_zero, List.length_eq_zero]
    exact hne
  have hcpp : jsDiv e.amount (JsNum.fin (e.splitBetween.length : ℚ))
      = JsNum.fin (aq / (e.splitBetween.length : ℚ)) := by
    rw [haq, jsDiv_fin_of_ne _ _ hn]
  have main : ∀ (cs : List String) (b : List (String × JsNum)), FinBals b →
      FinBals (cs.foldl
        (applyConsumer uid (JsNum.fin (aq / (e.splitBetween.length : ℚ)))
          (JsNum.fin aq) e.paidBy) b) ∧
      ∀ id, qAt (cs.foldl
          (applyConsumer uid (JsNum.fin (aq / (e.splitBetween.length : ℚ)))
            (JsNum.fin aq) e.paidBy) b) id
        = qAt b id + (cs.map fun c =>
            (e.paidBy.map fun p =>
              specAdjust uid id aq e.splitBetween.length c p.1 (toQ p.2)).sum).sum := by
    intro cs
    induction cs with
    | nil => intro b hbb; exact ⟨hbb, fun id => by simp⟩
    | cons c t ihc =>
        intro b hbb
        have hstep := applyConsumer_spec uid aq e.splitBetween.length c e.paidBy hps haq0 b hbb
        have hrest := ihc _ hstep.1
        refine ⟨by simpa [List.foldl_cons] using hrest.1, fun id => ?_⟩
        have h1 := hstep.2 id
        have h2 := hrest.2 id
        simp only [List.foldl_cons] at h2 ⊢
        rw [h2, h1, List.map_cons, List.sum_cons]
        ring
  have hcpp2 : jsDiv (JsNum.fin aq) (JsNum.fin (e.splitBetween.length : ℚ))
      = JsNum.fin (aq / (e.splitBetween.length : ℚ)) := jsDiv_fin_of_ne _ _ hn
  have hmain := main e.splitBetween bals hb
  constructor
  · have := hmain.1
    simpa [processExpense, haq, hcpp2] using this
  · intro id
    have := hmain.2 id
    simp only [processExpense, haq, hcpp2]
    rw [this]
    simp [specExpenseAdjust, haq, toQ]

/-- The whole expense fold agrees with the spec-side sum of per-expense
adjustments. -/
theorem foldExpenses_spec (uid : String) (es : List Expense)
    (hes : ∀ e ∈ es, FiniteNonzeroExpense e) :
    ∀ (bals : List (String × JsNum)), FinBals bals →
      FinBals (es.foldl (processExpense uid) bals) ∧
      ∀ id, qAt (es.foldl (processExpense uid) bals) id
        = qAt bals id + specBalance uid id es := by
  induction es with
  | nil =>
      intro bals hb
      exact ⟨hb, fun id => by simp [specBalance]⟩
  | cons e t ih =>
      intro bals hb
      have hstep := processExpense_spec uid e (hes e (List.mem_cons_self e t)) bals hb
      have hrest := ih (fun r hr => hes r (List.mem_cons_of_mem e hr)) _ hstep.1
      refine ⟨by simpa [List.foldl_cons] using hrest.1, fun id => ?_⟩
      have h1 := hstep.2 id
      have h2 := hrest.2 id
      simp only [List.foldl_cons] at h2 ⊢
      rw [h2, h1]
      simp only [specBalance, List.map_cons, List.sum_cons]
      ring

/-- The initialized balance object is finite and reads zero everywhere. -/
theorem initBals_spec (friends : List Friend) :
    FinBals (initBals friends) ∧ ∀ id, qAt (initBals friends) id = 0 := by
  unfold initBals
  refine foldl_preserve _ (fun b => FinBals b ∧ ∀ id, qAt b id = 0) ?_ friends [] ?_
  · rintro b f ⟨hfin, hq⟩
    cases hf : f.isMe with
    | true => simpa [hf] using ⟨hfin, hq⟩
    | false =>
        rw [if_neg (by decide : ¬false = true)]
        refine ⟨finBals_balsSet b f.id 0 hfin, fun id => ?_⟩
        by_cases hid : id = f.id
        · subst hid
          rw [qAt_balsSet_self]
        · rw [qAt_balsSet_ne b f.id _ id hid]
          exact hq id
  · exact ⟨fun p hp => absurd hp (List.not_mem_nil p), fun id => by simp [qAt, balsLookup, jsOrZero, toQ]⟩

theorem balanceAt_map (bals : List (String × JsNum)) (id : String) :
    balanceAt (bals.map fun p => ⟨p.1, p.2⟩) id = (balsLookup bals id).getD (JsNum.fin 0) := by
  induction bals with
  | nil => rfl
  | cons p rest ih =>
      by_cases h : p.1 = id
      · simp [balanceAt, List.find?, h, balsLookup]
      · simp only [balanceAt, List.map_cons, List.find?] at ih ⊢
        simp only [h, decide_eq_true_eq]
        simp only [balsLookup, h, if_false]
        simpa [balanceAt] using ih

theorem lookup_getD_fin (b : List (String × JsNum)) (id : String) (hb : FinBals b) :
    (balsLookup b id).getD (JsNum.fin 0) = JsNum.fin (qAt b id) := by
  cases h : balsLookup b id with
  | none => simp [qAt, h, jsOrZero, toQ]
  | some v =>
      rcases hb _ (balsLookup_mem b id v h) with ⟨q, hq⟩
      simp only at hq
      subst hq
      simp [qAt, h, jsOrZero_fin, toQ]

/-- Claim C1: Balance Engine accumulation rule.  For every expense list in
which each expense has a non-empty splitBetween, a finite non-zero amount
and finite paid amounts, the engine output at any id equals the sum, over
all expenses and all (payer, consumer) combinations, of the signed debt
chunk (amount / splitSize) * (paidAmount / amount): positive when the
acting user paid and the id consumed, negative when the id paid and the
acting user consumed, zero for every other combination. -/
theorem balance_engine_accumulation (friends : List Friend) (es : List Expense)
    (uid : String) (hes : ∀ e ∈ es, FiniteNonzeroExpense e) (id : String) :
    balanceAt (balances friends es (some uid)) id = JsNum.fin (specBalance uid id es) := by
  have hinit := initBals_spec friends
  have hfold := foldExpenses_spec uid es hes (initBals friends) hinit.1
  have hb : balances friends es (some uid)
      = (es.foldl (processExpense uid) (initBals friends)).map fun p => ⟨p.1, p.2⟩ := rfl
  rw [hb, balanceAt_map, lookup_getD_fin _ _ hfold.1, hfold.2 id, hinit.2 id, zero_add]

/-- Concrete expense used by the accumulation witness: 300 paid by the
acting user A, split across A, B, C. -/
def accWitnessExpense : Expense :=
  ⟨"e1", "dinner", JsNum.fin 300, [("A", JsNum.fin 300)], ["A", "B", "C"], "", "food", none⟩

theorem balance_engine_accumulation_witness :
    (∀ e ∈ [accWitnessExpense], FiniteNonzeroExpense e) ∧
    balanceAt (balances [⟨"B", false⟩, ⟨"C", false⟩] [accWitnessExpense] (some "A")) "B"
      = JsNum.fin (specBalance "A" "B" [accWitnessExpense]) :=
  ⟨by decide,
    balance_engine_accumulation [⟨"B", false⟩, ⟨"C", false⟩] [accWitnessExpense] "A"
      (by decide) "B"⟩

/-- Concrete zero-amount expense: amount 0, friend B recorded as payer of
0, acting user A the only consumer. -/
def zeroAmountExpense : Expense :=
  ⟨"e0", "zero", JsNum.fin 0, [("B", JsNum.fin 0)], ["A"], "", "other", none⟩

/-- Claim C2, evaluation at the failing input: the source computes
weight = paidAmount / amount with no guard for amount = 0, so the division
0 / 0 yields NaN, the debt chunk is NaN, and NaN is written into the
returned balance of friend B — the engine does not treat the weight as 0
and a non-finite value appears in the output. -/
theorem zero_amount_propagates_nan :
    balances [⟨"B", false⟩] [zeroAmountExpense] (some "A") = [⟨"B", JsNum.nan⟩] := by
  decide

/-- Claim C3: an expense whose splitBetween is empty contributes no
balance changes: removing it from any expense list leaves the output
unchanged, so no NaN or Infinity reaches any returned amount through it. -/
theorem empty_split_no_contribution (friends : List Friend) (es1 es2 : List Expense)
    (uid : String) (e : Expense) (h : e.splitBetween = []) :
    balances friends (es1 ++ e :: es2) (some uid)
      = balances friends (es1 ++ es2) (some uid) := by
  have hpe : ∀ b, processExpense uid b e = b := by
    intro b
    simp [processExpense, h]
  have h1 : balances friends (es1 ++ e :: es2) (some uid)
      = ((es1 ++ e :: es2).foldl (processExpense uid) (initBals friends)).map
          (fun p => ⟨p.1, p.2⟩) := rfl
  have h2 : balances friends (es1 ++ es2) (some uid)
      = ((es1 ++ es2).foldl (processExpense uid) (initBals friends)).map
          (fun p => ⟨p.1, p.2⟩) := rfl
  rw [h1, h2, List.foldl_append, List.foldl_append, List.foldl_cons, hpe]

/-- Concrete expense with an empty split group. -/
def emptySplitExpense : Expense :=
  ⟨"e5", "stray", JsNum.fin 77, [("A", JsNum.fin 77)], [], "", "other", none⟩

theorem empty_split_no_contribution_witness :
    balances [⟨"B", false⟩] ([] ++ emptySplitExpense :: []) (some "A")
      = balances [⟨"B", false⟩] ([] ++ []) (some "A") :=
  empty_split_no_contribution [⟨"B", false⟩] [] [] "A" emptySplitExpense rfl

/-- Claim C7: the Balance Engine is deterministic — two runs on identical
inputs produce the same multiset of (friendId, amount) pairs.  The
computation is a pure function of its arguments in the source (no I/O and
no shared mutable state), which the embedding reflects directly. -/
theorem balances_deterministic (f1 f2 : List Friend) (e1 e2 : List Expense)
    (u1 u2 : Option String) (hf : f1 = f2) (he : e1 = e2) (hu : u1 = u2) :
    Multiset.ofList ((balances f1 e1 u1).map fun b => (b.friendId, b.amount))
      = Multiset.ofList ((balances f2 e2 u2).map fun b => (b.friendId, b.amount)) := by
  subst hf
  subst he
  subst hu
  rfl

theorem balances_deterministic_witness :
    Multiset.ofList ((balances [⟨"B", false⟩] [] (some "A")).map
        fun b => (b.friendId, b.amount))
      = Multiset.ofList ((balances [⟨"B", false⟩] [] (some "A")).map
        fun b => (b.friendId, b.amount)) :=
  balances_deterministic [⟨"B", false⟩] [⟨"B", false⟩] [] [] (some "A") (some "A")
    rfl rfl rfl

/-- Claim C4: Submission Encoder routing.  With exactly one payer entry
whose recorded amount is within 0.01 of the total (Math.abs difference
strictly below 0.01), the persisted paid_by is the bare payer id; in every
other case (zero entries, two or more entries, or a single entry for which
the strict comparison fails) the persisted paid_by is the paidBy mapping
unchanged. -/
theorem submission_encoder_routing (u now : String) (d : ExpenseDraft) :
    (∀ i v, d.paidBy = [(i, v)] →
        (jsLt (jsAbs (jsSub v d.amount)) (JsNum.fin (1 / 100)) = true →
          (handleAddExpense u now d).paid_by = PaidByPayload.scalar i) ∧
        (jsLt (jsAbs (jsSub v d.amount)) (JsNum.fin (1 / 100)) = false →
          (handleAddExpense u now d).paid_by = PaidByPayload.mapping d.paidBy)) ∧
    (d.paidBy.length ≠ 1 →
      (handleAddExpense u now d).paid_by = PaidByPayload.mapping d.paidBy) := by
  constructor
  · intro i v hpb
    constructor
    · intro hlt
      simp only [handleAddExpense]
      rw [hpb]
      simp only [encodePaidBy]
      rw [if_pos hlt]
    · intro hlt
      simp only [handleAddExpense]
      rw [hpb]
      simp only [encodePaidBy]
      rw [if_neg (by rw [hlt]; simp)]
  · intro hlen
    cases hm : d.paidBy with
    | nil => simp [handleAddExpense, encodePaidBy, hm]
    | cons a t =>
        cases t with
        | nil => exact absurd (by rw [hm]; rfl) hlen
        | cons b t2 => simp [handleAddExpense, encodePaidBy, hm]

/-- Concrete draft with a single full-amount payer. -/
def encoderWitnessDraft : ExpenseDraft :=
  ⟨"lunch", JsNum.fin 300, [("u1", JsNum.fin 300)], ["u1", "u2"], "food"⟩

theorem submission_encoder_routing_witness :
    (handleAddExpense "u1" "t0" encoderWitnessDraft).paid_by = PaidByPayload.scalar "u1" :=
  ((submission_encoder_routing "u1" "t0" encoderWitnessDraft).1 "u1" (JsNum.fin 300)
    rfl).1 (by
      show jsLt (jsAbs (jsSub (JsNum.fin 300) encoderWitnessDraft.amount))
        (JsNum.fin (1 / 100)) = true
      rw [show encoderWitnessDraft.amount = JsNum.fin 300 from rfl, jsSub_fin]
      simp only [jsAbs, jsLt, decide_eq_true_eq]
      norm_num)

/-- Claim C5: Expense Normalizer case analysis.  A string paid_by yields
the singleton mapping holding the total amount, an object paid_by passes
through, null or absent paid_by yields the empty mapping, and an absent
split_between defaults to the empty sequence.  The normalizer is a total
function, so no malformed input raises an error. -/
theorem normalizer_cases (e : RawExpense) :
    (∀ s, e.paid_by = RawPaidBy.str s → (formatExpense e).paidBy = [(s, e.amount)]) ∧
    (∀ m, e.paid_by = RawPaidBy.obj m → (formatExpense e).paidBy = m) ∧
    (e.paid_by = RawPaidBy.nullv → (formatExpense e).paidBy = []) ∧
    (e.paid_by = RawPaidBy.undef → (formatExpense e).paidBy = []) ∧
    (e.split_between = none → (formatExpense e).splitBetween = []) := by
  refine ⟨fun s hs => ?_, fun m hm => ?_, fun h => ?_, fun h => ?_, fun h => ?_⟩
  · simp [formatExpense, hs]
  · simp [formatExpense, hm]
  · simp [formatExpense, h]
  · simp [formatExpense, h]
  · simp [formatExpense, h]

/-- Concrete raw record in the legacy scalar form with no split list. -/
def normalizerWitnessRaw : RawExpense :=
  ⟨"r1", "legacy", JsNum.fin 300, RawPaidBy.str "u1", none, "", "other", none⟩

theorem normalizer_cases_witness :
    (formatExpense normalizerWitnessRaw).paidBy = [("u1", JsNum.fin 300)] ∧
    (formatExpense normalizerWitnessRaw).splitBetween = [] :=
  ⟨(normalizer_cases normalizerWitnessRaw).1 "u1" rfl,
   (normalizer_cases normalizerWitnessRaw).2.2.2.2 rfl⟩

theorem encodePaidBy_mapping (amount : JsNum) (pb : List (String × JsNum))
    (m : List (String × JsNum))
    (h : encodePaidBy amount pb = PaidByPayload.mapping m) : m = pb := by
  cases pb with
  | nil =>
      simp only [encodePaidBy, PaidByPayload.mapping.injEq] at h
      exact h.symm
  | cons a t =>
      cases t with
      | nil =>
          obtain ⟨i, v⟩ := a
          by_cases hlt : jsLt (jsAbs (jsSub v amount)) (JsNum.fin (1 / 100)) = true
          · simp only [encodePaidBy] at h
            rw [if_pos hlt] at h
            exact PaidByPayload.noConfusion h
          · simp only [encodePaidBy] at h
            rw [if_neg hlt] at h
            simp only [PaidByPayload.mapping.injEq] at h
            exact h.symm
      | cons b t2 =>
          simp only [encodePaidBy, PaidByPayload.mapping.injEq] at h
          exact h.symm

/-- Claim C8: the Submission Encoder only routes the encoding form and
never corrects drift: the persisted amount, split_between, description and
category equal the draft fields unchanged, and whenever the mapping form
is chosen the persisted mapping equals the draft paidBy entry for entry. -/
theorem encoder_frame (u now : String) (d : ExpenseDraft) :
    (handleAddExpense u now d).amount = d.amount ∧
    (handleAddExpense u now d).split_between = d.splitBetween ∧
    (handleAddExpense u now d).description = d.description ∧
    (handleAddExpense u now d).category = d.category ∧
    ∀ m, (handleAddExpense u now d).paid_by = PaidByPayload.mapping m → m = d.paidBy := by
  refine ⟨rfl, rfl, rfl, rfl, fun m hm => ?_⟩
  exact encodePaidBy_mapping d.amount d.paidBy m hm

/-- Concrete draft with two payers of 150 each on a 300 total. -/
def frameWitnessDraft : ExpenseDraft :=
  ⟨"trip", JsNum.fin 300, [("u1", JsNum.fin 150), ("u2", JsNum.fin 150)], ["u1", "u2"],
    "transport"⟩

theorem encoder_frame_witness :
    (handleAddExpense "u1" "t1" frameWitnessDraft).amount = frameWitnessDraft.amount ∧
    [("u1", JsNum.fin 150), ("u2", JsNum.fin 150)] = frameWitnessDraft.paidBy :=
  ⟨(encoder_frame "u1" "t1" frameWitnessDraft).1,
   (encoder_frame "u1" "t1" frameWitnessDraft).2.2.2.2
     [("u1", JsNum.fin 150), ("u2", JsNum.fin 150)] rfl⟩

-- Key-membership and preservation lemmas for the balance object.

theorem mem_balsSet (b : List (String × JsNum)) (k : String) (v : JsNum)
    (p : String × JsNum) (hp : p ∈ balsSet b k v) : p = (k, v) ∨ p ∈ b := by
  induction b with
  | nil =>
      simp [balsSet] at hp
      exact Or.inl hp
  | cons x rest ih =>
      by_cases h : x.1 = k
      · simp [balsSet, h] at hp
        rcases hp with hp | hp
        · exact Or.inl (by simp [hp])
        · exact Or.inr (List.mem_cons_of_mem _ hp)
      · simp [balsSet, h] at hp
        rcases hp with hp | hp
        · exact Or.inr (by simp [hp])
        · rcases ih hp with h1 | h1
          · exact Or.inl h1
          · exact Or.inr (List.mem_cons_of_mem _ h1)

theorem mem_keys_of_mem_balsSet (b : List (String × JsNum)) (k : String) (v : JsNum)
    (a : String) (ha : a ∈ balsKeys b) : a ∈ balsKeys (balsSet b k v) :=
  (mem_balsKeys_balsSet b k v a).mpr (Or.inr ha)

theorem self_mem_keys_balsSet (b : List (String × JsNum)) (k : String) (v : JsNum) :
    k ∈ balsKeys (balsSet b k v) :=
  (mem_balsKeys_balsSet b k v k).mpr (Or.inl rfl)

theorem lookup_isSome_of_mem_keys (b : List (String × JsNum)) (a : String)
    (ha : a ∈ balsKeys b) : ∃ v, balsLookup b a = some v := by
  induction b with
  | nil => simp [balsKeys] at ha
  | cons p rest ih =>
      by_cases h : p.1 = a
      · exact ⟨p.2, by simp [balsLookup, h]⟩
      · simp only [balsKeys, List.map_cons, List.mem_cons] at ha
        rcases ha with ha | ha
        · exact absurd ha.symm h
        · rcases ih ha with ⟨v, hv⟩
          exact ⟨v, by simp [balsLookup, h, hv]⟩

/-- Write-target bound of the innermost step: any new key is the consumer
(when the acting user paid) or the payer (when the acting user consumed). -/
theorem mem_keys_applyPayerStep (uid : String) (cpp ea : JsNum) (ci : String)
    (bals : List (String × JsNum)) (p : String × JsNum) (a : String)
    (ha : a ∈ balsKeys (applyPayerStep uid cpp ea ci bals p)) :
    a ∈ balsKeys bals ∨ (a = ci ∧ p.1 = uid ∧ ci ≠ uid) ∨
      (a = p.1 ∧ p.1 ≠ uid ∧ ci = uid) := by
  simp only [applyPayerStep] at ha
  by_cases h2 : p.1 ≠ uid ∧ ci = uid
  · rw [if_pos h2, if_neg (show ¬(p.1 = uid ∧ ci ≠ uid) from fun h1 => h2.1 h1.1)] at ha
    rcases (mem_balsKeys_balsSet _ _ _ _).mp ha with h | h
    · exact Or.inr (Or.inr ⟨h, h2⟩)
    · exact Or.inl h
  · rw [if_neg h2] at ha
    by_cases h1 : p.1 = uid ∧ ci ≠ uid
    · rw [if_pos h1] at ha
      rcases (mem_balsKeys_balsSet _ _ _ _).mp ha with h | h
      · exact Or.inr (Or.inl ⟨h, h1⟩)
      · exact Or.inl h
    · rw [if_neg h1] at ha
      exact Or.inl ha

theorem keys_monotone_applyPayerStep (uid : String) (cpp ea : JsNum) (ci : String)
    (bals : List (String × JsNum)) (p : String × JsNum) (a : String)
    (ha : a ∈ balsKeys bals) : a ∈ balsKeys (applyPayerStep uid cpp ea ci bals p) := by
  simp only [applyPayerStep]
  by_cases h2 : p.1 ≠ uid ∧ ci = uid
  · rw [if_pos h2, if_neg (show ¬(p.1 = uid ∧ ci ≠ uid) from fun h1 => h2.1 h1.1)]
    exact mem_keys_of_mem_balsSet _ _ _ _ ha
  · rw [if_neg h2]
    by_cases h1 : p.1 = uid ∧ ci ≠ uid
    · rw [if_pos h1]
      exact mem_keys_of_mem_balsSet _ _ _ _ ha
    · rw [if_neg h1]
      exact ha

theorem applyPayerStep_lookup_preserved (uid : String) (cpp ea : JsNum) (ci : String)
    (bals : List (String × JsNum)) (p : String × JsNum) (a : String)
    (hci : a ≠ ci) (hpi : a ≠ p.1) :
    balsLookup (applyPayerStep uid cpp ea ci bals p) a = balsLookup bals a := by
  simp only [applyPayerStep]
  by_cases h2 : p.1 ≠ uid ∧ ci = uid
  · rw [if_pos h2, if_neg (show ¬(p.1 = uid ∧ ci ≠ uid) from fun h1 => h2.1 h1.1)]
    exact balsLookup_balsSet_ne _ _ _ _ hpi
  · rw [if_neg h2]
    by_cases h1 : p.1 = uid ∧ ci ≠ uid
    · rw [if_pos h1]
      exact balsLookup_balsSet_ne _ _ _ _ hci
    · rw [if_neg h1]

theorem applyPayerStep_writes_consumer (uid : String) (cpp ea : JsNum) (ci : String)
    (bals : List (String × JsNum)) (p : String × JsNum)
    (hp : p.1 = uid) (hc : ci ≠ uid) :
    ci ∈ balsKeys (applyPayerStep uid cpp ea ci bals p) := by
  simp only [applyPayerStep]
  rw [if_neg (show ¬(p.1 ≠ uid ∧ ci = uid) from fun h2 => h2.1 hp),
    if_pos (show p.1 = uid ∧ ci ≠ uid from ⟨hp, hc⟩)]
  exact self_mem_keys_balsSet _ _ _

theorem applyPayerStep_writes_payer (uid : String) (cpp ea : JsNum) (ci : String)
    (bals : List (String × JsNum)) (p : String × JsNum)
    (hp : p.1 ≠ uid) (hc : ci = uid) :
    p.1 ∈ balsKeys (applyPayerStep uid cpp ea ci bals p) := by
  simp only [applyPayerStep]
  rw [if_pos (show p.1 ≠ uid ∧ ci = uid from ⟨hp, hc⟩),
    if_neg (show ¬(p.1 = uid ∧ ci ≠ uid) from fun h1 => hp h1.1)]
  exact self_mem_keys_balsSet _ _ _

theorem keys_nodup_applyPayerStep (uid : String) (cpp ea : JsNum) (ci : String)
    (bals : List (String × JsNum)) (p : String × JsNum)
    (hb : (balsKeys bals).Nodup) :
    (balsKeys (applyPayerStep uid cpp ea ci bals p)).Nodup := by
  simp only [applyPayerStep]
  by_cases h2 : p.1 ≠ uid ∧ ci = uid
  · rw [if_pos h2, if_neg (show ¬(p.1 = uid ∧ ci ≠ uid) from fun h1 => h2.1 h1.1)]
    exact balsKeys_nodup_balsSet _ _ _ hb
  · rw [if_neg h2]
    by_cases h1 : p.1 = uid ∧ ci ≠ uid
    · rw [if_pos h1]
      exact balsKeys_nodup_balsSet _ _ _ hb
    · rw [if_neg h1]
      exact hb

theorem keys_monotone_applyConsumer (uid : String) (cpp ea : JsNum)
    (payers : List (String × JsNum)) (ci : String) (a : String)
    (bals : List (String × JsNum)) (ha : a ∈ balsKeys bals) :
    a ∈ balsKeys (applyConsumer uid cpp ea payers bals ci) :=
  foldl_preserve _ (fun s => a ∈ balsKeys s)
    (fun s x hs => keys_monotone_applyPayerStep uid cpp ea ci s x a hs) payers bals ha

theorem keys_monotone_processExpense (uid : String) (e : Expense) (a : String)
    (bals : List (String × JsNum)) (ha : a ∈ balsKeys bals) :
    a ∈ balsKeys (processExpense uid bals e) := by
  simp only [processExpense]
  exact foldl_preserve _ (fun s => a ∈ balsKeys s)
    (fun s c hs => keys_monotone_applyConsumer uid _ _ e.paidBy c a s hs)
    e.splitBetween bals ha

theorem foldExpenses_keys_monotone (uid : String) (es : List Expense) (a : String)
    (bals : List (String × JsNum)) (ha : a ∈ balsKeys bals) :
    a ∈ balsKeys (es.foldl (processExpense uid) bals) :=
  foldl_preserve _ (fun s => a ∈ balsKeys s)
    (fun s e hs => keys_monotone_processExpense uid e a s hs) es bals ha

theorem foldExpenses_keys_nodup (uid : String) (es : List Expense)
    (bals : List (String × JsNum)) (hb : (balsKeys bals).Nodup) :
    (balsKeys (es.foldl (processExpense uid) bals)).Nodup := by
  refine foldl_preserve _ (fun s => (balsKeys s).Nodup) ?_ es bals hb
  intro s e hs
  simp only [processExpense]
  refine foldl_preserve _ (fun s2 => (balsKeys s2).Nodup) ?_ e.splitBetween s hs
  intro s2 c hs2
  refine foldl_preserve _ (fun s3 => (balsKeys s3).Nodup) ?_ e.paidBy s2 hs2
  intro s3 p hs3
  exact keys_nodup_applyPayerStep uid _ _ c s3 p hs3

theorem initBals_keys_nodup (friends : List Friend) :
    (balsKeys (initBals friends)).Nodup := by
  unfold initBals
  refine foldl_preserve _ (fun b => (balsKeys b).Nodup) ?_ friends [] (by simp [balsKeys])
  intro b f hb
  cases hf : f.isMe with
  | true => simpa using hb
  | false =>
      rw [if_neg (by decide : ¬false = true)]
      exact balsKeys_nodup_balsSet _ _ _ hb

theorem initBals_values (friends : List Friend) :
    ∀ p ∈ initBals friends, p.2 = JsNum.fin 0 := by
  unfold initBals
  refine foldl_preserve _
    (fun b : List (String × JsNum) => ∀ p ∈ b, p.2 = JsNum.fin 0) ?_ friends [] ?_
  · intro b f hb
    cases hf : f.isMe with
    | true => simpa using hb
    | false =>
        rw [if_neg (by decide : ¬false = true)]
        intro p hp
        rcases mem_balsSet b f.id (JsNum.fin 0) p hp with h | h
        · rw [h]
        · exact hb p h
  · intro p hp
    exact absurd hp (List.not_mem_nil p)

theorem mem_keys_initBals_of (friends : List Friend) (f : Friend)
    (hf : f ∈ friends) (hme : f.isMe = false) : f.id ∈ balsKeys (initBals friends) := by
  unfold initBals
  refine foldl_reach _ (fun b => f.id ∈ balsKeys b) ?_ friends f hf ?_ []
  · intro s x hs
    cases hx : x.isMe with
    | true => simpa using hs
    | false =>
        rw [if_neg (by decide : ¬false = true)]
        exact mem_keys_of_mem_balsSet _ _ _ _ hs
  · intro s
    rw [hme, if_neg (by decide : ¬false = true)]
    exact self_mem_keys_balsSet _ _ _

theorem mem_keys_initBals (friends : List Friend) (a : String)
    (ha : a ∈ balsKeys (initBals friends)) :
    ∃ f ∈ friends, f.isMe = false ∧ f.id = a := by
  unfold initBals at ha
  refine foldl_mem_induction (fun b fr => if fr.isMe then b else balsSet b fr.id (JsNum.fin 0))
    (fun b => a ∈ balsKeys b → ∃ f ∈ friends, f.isMe = false ∧ f.id = a) friends []
    (fun h => absurd h (by simp [balsKeys])) ?_ ha
  intro x hx s hsP hmem
  have hmem2 : a ∈ balsKeys (if x.isMe then s else balsSet s x.id (JsNum.fin 0)) := hmem
  cases hx2 : x.isMe with
  | true =>
      rw [hx2, if_pos rfl] at hmem2
      exact hsP hmem2
  | false =>
      rw [hx2, if_neg (by decide : ¬false = true)] at hmem2
      rcases (mem_balsKeys_balsSet _ _ _ _).mp hmem2 with h | h
      · exact ⟨x, hx, hx2, h.symm⟩
      · exact hsP h

theorem processExpense_lookup_preserved (uid : String) (e : Expense) (a : String)
    (hs : a ∉ e.splitBetween) (hpk : a ∉ balsKeys e.paidBy)
    (bals : List (String × JsNum)) :
    balsLookup (processExpense uid bals e) a = balsLookup bals a := by
  simp only [processExpense]
  refine foldl_mem_induction _ (fun s => balsLookup s a = balsLookup bals a)
    e.splitBetween bals rfl ?_
  intro c hc s hsv
  have hstep : balsLookup (applyConsumer uid (jsDiv e.amount (JsNum.fin e.splitBetween.length))
      e.amount e.paidBy s c) a = balsLookup s a := by
    refine foldl_mem_induction _ (fun s2 => balsLookup s2 a = balsLookup s a)
      e.paidBy s rfl ?_
    intro p hp s2 hs2
    rw [applyPayerStep_lookup_preserved uid _ _ c s2 p a
      (fun h => hs (by rw [h]; exact hc))
      (fun h => hpk (by rw [h]; exact List.mem_map_of_mem Prod.fst hp)), hs2]
  rw [hstep, hsv]

theorem foldExpenses_lookup_preserved (uid : String) (es : List Expense) (a : String)
    (h : ∀ e ∈ es, a ∉ e.splitBetween ∧ a ∉ balsKeys e.paidBy)
    (bals : List (String × JsNum)) :
    balsLookup (es.foldl (processExpense uid) bals) a = balsLookup bals a := by
  refine foldl_mem_induction _ (fun s => balsLookup s a = balsLookup bals a) es bals rfl ?_
  intro e he s hsv
  rw [processExpense_lookup_preserved uid e a (h e he).1 (h e he).2 s, hsv]

theorem applyPayerStep_preserves_not_uid (uid : String) (cpp ea : JsNum) (ci : String)
    (bals : List (String × JsNum)) (p : String × JsNum)
    (h : uid ∉ balsKeys bals) : uid ∉ balsKeys (applyPayerStep uid cpp ea ci bals p) := by
  intro hmem
  rcases mem_keys_applyPayerStep uid cpp ea ci bals p uid hmem with h1 | h1 | h1
  · exact h h1
  · exact h1.2.2 h1.1.symm
  · exact h1.2.1 h1.1.symm

theorem foldExpenses_preserves_not_uid (uid : String) (es : List Expense)
    (bals : List (String × JsNum)) (h : uid ∉ balsKeys bals) :
    uid ∉ balsKeys (es.foldl (processExpense uid) bals) := by
  refine foldl_preserve _ (fun s => uid ∉ balsKeys s) ?_ es bals h
  intro s e hs
  simp only [processExpense]
  refine foldl_preserve _ (fun s2 => uid ∉ balsKeys s2) ?_ e.splitBetween s hs
  intro s2 c hs2
  refine foldl_preserve _ (fun s3 => uid ∉ balsKeys s3) ?_ e.paidBy s2 hs2
  intro s3 p hs3
  exact applyPayerStep_preserves_not_uid uid _ _ c s3 p hs3

theorem initBals_not_mem_uid (friends : List Friend) (uid : String)
    (hself : ∀ f ∈ friends, f.id = uid → f.isMe = true) :
    uid ∉ balsKeys (initBals friends) := by
  intro hmem
  rcases mem_keys_initBals friends uid hmem with ⟨f, hf, hme, hid⟩
  rw [hself f hf hid] at hme
  exact Bool.noConfusion hme

theorem processExpense_writes_consumer (uid : String) (e : Expense) (c : String)
    (hc : c ∈ e.splitBetween) (hu : uid ∈ balsKeys e.paidBy) (hne : c ≠ uid)
    (bals : List (String × JsNum)) : c ∈ balsKeys (processExpense uid bals e) := by
  rcases List.mem_map.mp hu with ⟨p, hp, hp1⟩
  simp only [processExpense]
  refine foldl_reach _ (fun s => c ∈ balsKeys s)
    (fun s x hs => keys_monotone_applyConsumer uid _ _ e.paidBy x c s hs)
    e.splitBetween c hc ?_ bals
  intro s
  refine foldl_reach _ (fun s2 => c ∈ balsKeys s2)
    (fun s2 x hs2 => keys_monotone_applyPayerStep uid _ _ c s2 x c hs2)
    e.paidBy p hp ?_ s
  intro s2
  exact applyPayerStep_writes_consumer uid _ _ c s2 p hp1 hne

theorem processExpense_writes_payer (uid : String) (e : Expense) (a : String)
    (hpk : a ∈ balsKeys e.paidBy) (hu : uid ∈ e.splitBetween) (hne : a ≠ uid)
    (bals : List (String × JsNum)) : a ∈ balsKeys (processExpense uid bals e) := by
  rcases List.mem_map.mp hpk with ⟨p, hp, hp1⟩
  simp only [processExpense]
  refine foldl_reach _ (fun s => a ∈ balsKeys s)
    (fun s x hs => keys_monotone_applyConsumer uid _ _ e.paidBy x a s hs)
    e.splitBetween uid hu ?_ bals
  intro s
  refine foldl_reach _ (fun s2 => a ∈ balsKeys s2)
    (fun s2 x hs2 => keys_monotone_applyPayerStep uid _ _ uid s2 x a hs2)
    e.paidBy p hp ?_ s
  intro s2
  have hw := applyPayerStep_writes_payer uid
    (jsDiv e.amount (JsNum.fin (e.splitBetween.length : ℚ))) e.amount uid s2 p
    (by rw [hp1]; exact hne) rfl
  rw [hp1] at hw
  exact hw

theorem countP_keys_eq_one (l : List String) (a : String)
    (hnd : l.Nodup) (ha : a ∈ l) : l.countP (fun k => k = a) = 1 := by
  induction l with
  | nil => simp at ha
  | cons k t ih =>
      rw [List.nodup_cons] at hnd
      rcases List.mem_cons.mp ha with h | h
      · subst h
        rw [List.countP_cons_of_pos _ _ (by simp)]
        have hz : t.countP (fun x => decide (x = a)) = 0 := by
          rw [List.countP_eq_zero]
          intro x hx
          simp only [decide_eq_true_eq]
          intro hxa
          exact hnd.1 (hxa ▸ hx)
        rw [hz]
      · have hk : ¬(k = a) := fun he => hnd.1 (by rw [he]; exact h)
        rw [List.countP_cons_of_neg _ _ (by simp [hk])]
        exact ih hnd.2 h

theorem countP_output (bals : List (String × JsNum)) (a : String) :
    (bals.map (fun p => (⟨p.1, p.2⟩ : Balance))).countP (fun b => b.friendId = a)
      = (balsKeys bals).countP (fun k => k = a) := by
  rw [List.countP_map]
  unfold balsKeys
  rw [List.countP_map]
  rfl

theorem mem_output_of_mem_keys (bals : List (String × JsNum)) (a : String)
    (ha : a ∈ balsKeys bals) :
    ∃ b ∈ bals.map (fun p => (⟨p.1, p.2⟩ : Balance)), b.friendId = a := by
  rcases List.mem_map.mp ha with ⟨p, hp, hp1⟩
  exact ⟨⟨p.1, p.2⟩, List.mem_map_of_mem _ hp, hp1⟩

/-- Key bound of one expense: any new key is a consumer of the expense
while the acting user is among its payers, or a payer of the expense while
the acting user is among its consumers. -/
theorem mem_keys_processExpense (uid : String) (e : Expense) (a : String)
    (bals : List (String × JsNum))
    (ha : a ∈ balsKeys (processExpense uid bals e)) :
    a ∈ balsKeys bals ∨ (a ∈ e.splitBetween ∧ uid ∈ balsKeys e.paidBy) ∨
      (a ∈ balsKeys e.paidBy ∧ uid ∈ e.splitBetween) := by
  simp only [processExpense] at ha
  refine foldl_mem_induction _
    (fun s => a ∈ balsKeys s → a ∈ balsKeys bals ∨
      (a ∈ e.splitBetween ∧ uid ∈ balsKeys e.paidBy) ∨
      (a ∈ balsKeys e.paidBy ∧ uid ∈ e.splitBetween))
    e.splitBetween bals (fun h => Or.inl h) ?_ ha
  intro c hc s hsP
  refine foldl_mem_induction _
    (fun s2 => a ∈ balsKeys s2 → a ∈ balsKeys bals ∨
      (a ∈ e.splitBetween ∧ uid ∈ balsKeys e.paidBy) ∨
      (a ∈ balsKeys e.paidBy ∧ uid ∈ e.splitBetween))
    e.paidBy s hsP ?_
  intro p hp s2 hs2P hmem2
  rcases mem_keys_applyPayerStep uid _ _ c s2 p a hmem2 with h | h | h
  · exact hs2P h
  · refine Or.inr (Or.inl ⟨by rw [h.1]; exact hc, ?_⟩)
    have := List.mem_map_of_mem Prod.fst hp
    rw [h.2.1] at this
    exact this
  · refine Or.inr (Or.inr ⟨?_, by rw [← h.2.2]; exact hc⟩)
    have := List.mem_map_of_mem Prod.fst hp
    rw [h.1]
    exact this

/-- Claim C6: the engine output holds exactly one entry for each non-self
Friend id of the Friend collection, and a friend whose id is touched by no
expense (neither as payer key nor as split participant) reports exactly
the finite value 0, never NaN. -/
theorem engine_friend_entries (friends : List Friend) (es : List Expense) (uid : String)
    (f : Friend) (hf : f ∈ friends) (hme : f.isMe = false) :
    (balances friends es (some uid)).countP (fun b => b.friendId = f.id) = 1 ∧
    ((∀ e ∈ es, f.id ∉ e.splitBetween ∧ f.id ∉ balsKeys e.paidBy) →
      balanceAt (balances friends es (some uid)) f.id = JsNum.fin 0) := by
  have hout : balances friends es (some uid)
      = (es.foldl (processExpense uid) (initBals friends)).map fun p => ⟨p.1, p.2⟩ := rfl
  constructor
  · rw [hout, countP_output]
    refine countP_keys_eq_one _ _ ?_ ?_
    · exact foldExpenses_keys_nodup uid es _ (initBals_keys_nodup friends)
    · exact foldExpenses_keys_monotone uid es f.id _ (mem_keys_initBals_of friends f hf hme)
  · intro huntouched
    rw [hout, balanceAt_map]
    rw [foldExpenses_lookup_preserved uid es f.id huntouched (initBals friends)]
    rcases lookup_isSome_of_mem_keys (initBals friends) f.id
      (mem_keys_initBals_of friends f hf hme) with ⟨v, hv⟩
    have hv0 : v = JsNum.fin 0 := initBals_values friends _ (balsLookup_mem _ _ _ hv)
    rw [hv, hv0]
    rfl

theorem engine_friend_entries_witness :
    (balances [⟨"B", false⟩] [] (some "A")).countP (fun b => b.friendId = "B") = 1 ∧
    balanceAt (balances [⟨"B", false⟩] [] (some "A")) "B" = JsNum.fin 0 :=
  ⟨(engine_friend_entries [⟨"B", false⟩] [] "A" ⟨"B", false⟩ (by decide) rfl).1,
   (engine_friend_entries [⟨"B", false⟩] [] "A" ⟨"B", false⟩ (by decide) rfl).2
     (by decide)⟩

/-- Claim C9: the engine output never contains an entry whose friendId is
the acting-user id, provided every Friend record carrying that id is
marked isMe: the initialization skips isMe friends and both accumulation
branches require the written id to differ from the acting user, so absence
of a self entry is preserved by every operation. -/
theorem no_self_balance_entry (friends : List Friend) (es : List Expense) (uid : String)
    (hself : ∀ f ∈ friends, f.id = uid → f.isMe = true) :
    ∀ b ∈ balances friends es (some uid), b.friendId ≠ uid := by
  intro b hb
  have hout : balances friends es (some uid)
      = (es.foldl (processExpense uid) (initBals friends)).map fun p => ⟨p.1, p.2⟩ := rfl
  rw [hout] at hb
  rcases List.mem_map.mp hb with ⟨p, hp, hpb⟩
  intro heq
  have hp1 : p.1 = uid := by rw [← heq, ← hpb]
  have hkey : p.1 ∈ balsKeys (es.foldl (processExpense uid) (initBals friends)) :=
    List.mem_map_of_mem Prod.fst hp
  rw [hp1] at hkey
  exact foldExpenses_preserves_not_uid uid es (initBals friends)
    (initBals_not_mem_uid friends uid hself) hkey

theorem no_self_balance_entry_witness :
    (⟨"B", JsNum.fin 0⟩ : Balance).friendId ≠ "A" :=
  no_self_balance_entry [⟨"A", true⟩, ⟨"B", false⟩] [] "A" (by decide)
    ⟨"B", JsNum.fin 0⟩ (by decide)

/-- Expense whose only consumer and only payer is the acting user. -/
def selfOnlyExpense : Expense :=
  ⟨"e6", "solo", JsNum.fin 10, [("A", JsNum.fin 10)], ["A"], "", "other", none⟩

/-- Claim C10, counterexample to the on-demand-entry clause as stated: the
acting-user id A occurs in the splitBetween of an expense whose payers
include A, so A falls in the second group, yet the output over an empty
Friend collection contains no entry at all — an id of those groups equal
to the acting user never receives an entry. -/
theorem on_demand_entry_counterexample :
    "A" ∈ selfOnlyExpense.splitBetween ∧ "A" ∈ balsKeys selfOnlyExpense.paidBy ∧
    balances [] [selfOnlyExpense] (some "A") = [] := by
  decide

/-- Claim C10 as amended: every friendId in the output is a non-self
Friend id, or occurs in the splitBetween of some expense whose payers
include the acting user, or occurs among the payers of some expense whose
splitBetween contains the acting user; conversely, every id of the latter
two groups other than the acting user itself receives an entry on demand,
even when absent from the Friend collection. -/
theorem output_ids_characterization (friends : List Friend) (es : List Expense)
    (uid : String) :
    (∀ b ∈ balances friends es (some uid),
       (∃ f ∈ friends, f.isMe = false ∧ f.id = b.friendId) ∨
       (∃ e ∈ es, b.friendId ∈ e.splitBetween ∧ uid ∈ balsKeys e.paidBy) ∨
       (∃ e ∈ es, b.friendId ∈ balsKeys e.paidBy ∧ uid ∈ e.splitBetween)) ∧
    (∀ id, id ≠ uid →
       (∃ e ∈ es, (id ∈ e.splitBetween ∧ uid ∈ balsKeys e.paidBy) ∨
         (id ∈ balsKeys e.paidBy ∧ uid ∈ e.splitBetween)) →
       ∃ b ∈ balances friends es (some uid), b.friendId = id) := by
  have hout : balances friends es (some uid)
      = (es.foldl (processExpense uid) (initBals friends)).map fun p => ⟨p.1, p.2⟩ := rfl
  constructor
  · intro b hb
    rw [hout] at hb
    rcases List.mem_map.mp hb with ⟨p, hp, hpb⟩
    have hkey : b.friendId ∈ balsKeys (es.foldl (processExpense uid) (initBals friends)) := by
      have h1 : b.friendId = p.1 := by rw [← hpb]
      rw [h1]
      exact List.mem_map_of_mem Prod.fst hp
    revert hkey
    refine foldl_mem_induction _
      (fun s => b.friendId ∈ balsKeys s →
        (∃ f ∈ friends, f.isMe = false ∧ f.id = b.friendId) ∨
        (∃ e ∈ es, b.friendId ∈ e.splitBetween ∧ uid ∈ balsKeys e.paidBy) ∨
        (∃ e ∈ es, b.friendId ∈ balsKeys e.paidBy ∧ uid ∈ e.splitBetween))
      es (initBals friends)
      (fun h => Or.inl (mem_keys_initBals friends b.friendId h)) ?_
    intro e he s hsP hmem
    rcases mem_keys_processExpense uid e b.friendId s hmem with h | h | h
    · exact hsP h
    · exact Or.inr (Or.inl ⟨e, he, h⟩)
    · exact Or.inr (Or.inr ⟨e, he, h⟩)
  · intro id hid hex
    rcases hex with ⟨e, he, hcase⟩
    rw [hout]
    apply mem_output_of_mem_keys
    rcases hcase with ⟨h1, h2⟩ | ⟨h1, h2⟩
    · refine foldl_reach _ (fun s => id ∈ balsKeys s)
        (fun s x hs => keys_monotone_processExpense uid x id s hs)
        es e he ?_ (initBals friends)
      intro s
      exact processExpense_writes_consumer uid e id h1 h2 hid s
    · refine foldl_reach _ (fun s => id ∈ balsKeys s)
        (fun s x hs => keys_monotone_processExpense uid x id s hs)
        es e he ?_ (initBals friends)
      intro s
      exact processExpense_writes_payer uid e id h1 h2 hid s

/-- Expense paid by the acting user A and consumed by the absent id B. -/
def crossExpense : Expense :=
  ⟨"e7", "cross", JsNum.fin 10, [("A", JsNum.fin 10)], ["B"], "", "other", none⟩

theorem output_ids_characterization_witness :
    "B" ∈ (balances [] [crossExpense] (some "A")).map (fun b => b.friendId) := by
  rcases (output_ids_characterization [] [crossExpense] "A").2 "B" (by decide)
    ⟨crossExpense, by decide, Or.inl ⟨by decide, by decide⟩⟩ with ⟨b, hb, hid⟩
  rw [← hid]
  exact List.mem_map_of_mem _ hb
